import Mathlib

/-!
Verification development for the usort import-statement organizer.

The repository ships `usort/util.py` (timing helpers and the multi-grammar
`try_parse` fallback) together with its CLI test suite.  The sorting core
(block location, categorization, merging, sorting, rendering, and the
per-file driver) is exercised by the tests but its module is not part of the
source tree here, so those components are modelled from the specification:
a source file is a list of lines, each line a list of whitespace-separated
tokens, and the pipeline reorders import lines inside each maximal
contiguous run of import lines while leaving every other line untouched.
-/

namespace Usort

/-- Three-way comparison on naturals, used as the atom of all sort keys. -/
def natCmp (a b : Nat) : Ordering :=
  if a < b then .lt else if a = b then .eq else .gt

/-- Lexicographic three-way comparison on lists from an element comparison. -/
def listCmp (c : α → α → Ordering) : List α → List α → Ordering
  | [], [] => .eq
  | [], _ :: _ => .lt
  | _ :: _, [] => .gt
  | a :: as, b :: bs =>
    match c a b with
    | .lt => .lt
    | .eq => listCmp c as bs
    | .gt => .gt

/-- Tokens are plain strings; a raw line is its token list. -/
abbrev Token := String

/-- A source line, as its list of whitespace-separated tokens. -/
abbrev RawLine := List Token

/-- Render one token line back to text. -/
def renderLine (l : RawLine) : String := String.intercalate " " l

/-- Render a whole file: each line followed by a newline. -/
def renderFile (ls : List RawLine) : String :=
  String.join (ls.map fun l => renderLine l ++ "\n")

/-- Modelled from the spec: recognizer for `from X import a, b` statements
(the CLI sorting module holding the real recognizer is not in the tree). -/
def isFrom : RawLine → Bool
  | f :: _ :: i :: _ => f == "from" && i == "import"
  | _ => false

/-- Modelled from the spec: recognizer for plain `import X` statements. -/
def isPlain : RawLine → Bool
  | i :: _ :: _ => i == "import"
  | _ => false

/-- Modelled from the spec: a per-statement skip directive comment ends the
current block, so a line carrying it is never part of an import block. -/
def hasSkipDirective (l : RawLine) : Bool := decide ("usort:skip" ∈ l)

/-- Modelled from the spec: a line belongs to an import block when it is a
recognized import form and carries no skip directive. -/
def isImport (l : RawLine) : Bool := (isFrom l || isPlain l) && !hasSkipDirective l

/-- Modelled from the spec: the dotted module path of an import statement. -/
def pathOf : RawLine → String
  | _ :: p :: _ => p
  | _ => ""

/-- Modelled from the spec: the imported-name list of a `from` import. -/
def namesOf (l : RawLine) : List Token := if isFrom l then l.drop 3 else []

/-- Modelled from the spec: wildcard detection for `from X import *`. -/
def isWild (l : RawLine) : Bool := decide ("*" ∈ namesOf l)

/-- Modelled from the spec: the classification table resolved once per run
and passed to the categorizer as opaque data. -/
structure Config where
  first_party : List String
  standard_library : List String
  third_party : List String
deriving DecidableEq

/-- Modelled from the spec: exact or dotted-prefix match of a module path
against a configured module-name list. -/
def moduleMatch (mods : List String) (p : String) : Bool :=
  mods.any fun m => p == m || (m ++ ".").data.isPrefixOf p.data

/-- Modelled from the spec: a relative import target starts with a dot. -/
def isRelative (p : String) : Bool := decide (p.data.head? = some '.')

/-- Modelled from the spec: category ranks, ascending
`FUTURE(0) < STANDARD_LIBRARY(1) < THIRD_PARTY(2) < FIRST_PARTY(3)`;
relative imports are first-party-equivalent, unresolvable names default to
third-party. -/
def category (cfg : Config) (p : String) : Nat :=
  if isRelative p then 3
  else if p == "__future__" then 0
  else if moduleMatch cfg.first_party p then 3
  else if moduleMatch cfg.standard_library p then 1
  else 2

/-- Case-insensitive code points of a string (ASCII lowering). -/
def lowerCodes (s : String) : List Nat :=
  s.data.map fun ch =>
    let n := ch.toNat
    if 65 ≤ n ∧ n ≤ 90 then n + 32 else n

/-- SortKey per the spec: category rank, case-insensitive dotted path, and
case-insensitive sorted imported-name tuple, encoded as the list whose head
is the singleton rank, then the path codes, then the name code lists, so
that the lexicographic list order is exactly the lexicographic tuple
order. -/
abbrev SortKey := List (List Nat)

/-- Three-way comparison on sort keys, lexicographic over the components. -/
def keyCmp (a b : SortKey) : Ordering := listCmp (listCmp natCmp) a b

/-- Total preorder on sort keys induced by `keyCmp`. -/
def keyLE (a b : SortKey) : Prop := keyCmp a b ≠ .gt

instance : DecidableRel keyLE := fun a b => by
  unfold keyLE; infer_instance

/-- Case-insensitive order on name tokens, used to sort merged name lists. -/
def tokenLE (a b : Token) : Prop := listCmp natCmp (lowerCodes a) (lowerCodes b) ≠ .gt

instance : DecidableRel tokenLE := fun a b => by
  unfold tokenLE; infer_instance

/-- Case-insensitive order on code lists, used inside the name tuple key. -/
def codesLE (a b : List Nat) : Prop := listCmp natCmp a b ≠ .gt

instance : DecidableRel codesLE := fun a b => by
  unfold codesLE; infer_instance

/-- Modelled from the spec: the name-tuple component of the sort key is the
case-insensitive sorted tuple of imported names. -/
def nameCodes (l : RawLine) : List (List Nat) :=
  List.insertionSort codesLE ((namesOf l).map lowerCodes)

/-- Modelled from the spec: the sort key of one import statement. -/
def keyOf (cfg : Config) (l : RawLine) : SortKey :=
  [category cfg (pathOf l)] :: lowerCodes (pathOf l) :: nameCodes l

/-- Order on lines by their sort keys, used by the stable sort. -/
def lineLE (cfg : Config) (a b : RawLine) : Prop := keyLE (keyOf cfg a) (keyOf cfg b)

instance (cfg : Config) : DecidableRel (lineLE cfg) := fun a b => by
  unfold lineLE; infer_instance

/-- Test whether a line is a `from` import of the given module path. -/
def sameFrom (p : String) (l : RawLine) : Bool := isFrom l && decide (pathOf l = p)

/-- Modelled from the spec: merged name lists are deduplicated and
internally sorted case-insensitively. -/
def mergedNames (ls : List RawLine) : List Token :=
  List.insertionSort tokenLE ((ls.flatMap namesOf).dedup)

/-- Canonical rendering of a merged `from` import statement. -/
def mkMerged (p : String) (ns : List Token) : RawLine :=
  "from" :: p :: "import" :: ns

/-- Modelled from the spec: the merge pass over one block.  `from` imports
with an identical module path are merged into one statement unless the
group contains a wildcard import; `frozen` records paths whose groups were
found unmergeable so their later members pass through untouched. -/
def mergeAux (frozen : List String) : List RawLine → List RawLine
  | [] => []
  | s :: rest =>
    if isFrom s then
      if pathOf s ∈ frozen then s :: mergeAux frozen rest
      else if rest.filter (sameFrom (pathOf s)) = [] then s :: mergeAux frozen rest
      else if isWild s || (rest.filter (sameFrom (pathOf s))).any isWild then
        s :: mergeAux (pathOf s :: frozen) rest
      else
        mkMerged (pathOf s) (mergedNames (s :: rest.filter (sameFrom (pathOf s))))
          :: mergeAux frozen (rest.filter fun l => !sameFrom (pathOf s) l)
    else s :: mergeAux frozen rest
termination_by ls => ls.length
decreasing_by
  · simp only [List.length_cons]; omega
  · simp only [List.length_cons]; omega
  · simp only [List.length_cons]; omega
  · simp only [List.length_cons]
    have := List.length_filter_le (fun l => !sameFrom (pathOf s) l) rest
    omega
  · simp only [List.length_cons]; omega

/-- Merge pass over one block, starting with no frozen paths. -/
def mergeRun (r : List RawLine) : List RawLine := mergeAux [] r

/-- Modelled from the spec: stable sort of a block by sort key. -/
def sortRun (cfg : Config) (r : List RawLine) : List RawLine :=
  List.insertionSort (lineLE cfg) r

/-- Modelled from the spec: one block's processing, merge then stable sort. -/
def processRun (cfg : Config) (r : List RawLine) : List RawLine :=
  sortRun cfg (mergeRun r)

/-- Modelled from the spec: the whole-file pipeline.  Maximal contiguous
runs of import lines are merged and sorted; every other line (including
comments, code, and skip-directive lines) is copied through unchanged in
place. -/
def sortFile (cfg : Config) : List RawLine → List RawLine
  | [] => []
  | s :: rest =>
    if isImport s then
      processRun cfg (s :: rest.takeWhile isImport)
        ++ sortFile cfg (rest.dropWhile isImport)
    else s :: sortFile cfg rest
termination_by ls => ls.length
decreasing_by
  · simp only [List.length_cons]
    have : (rest.dropWhile isImport).length ≤ rest.length := by
      induction rest with
      | nil => simp [List.dropWhile]
      | cons a as ih =>
        by_cases h : isImport a
        · simp [List.dropWhile, h]; omega
        · simp [List.dropWhile, h]
    omega
  · simp only [List.length_cons]; omega

/-- Default classification table used in concrete scenarios. -/
def cfgDefault : Config := ⟨[], ["os", "sys"], []⟩

/-- Modelled from the spec: a comment line starts with a `#` token. -/
def isCommentLine (l : RawLine) : Bool := decide (l.head? = some "#")

/-- Scan a token line for a `coding:` marker and return the declared name. -/
def codingTok : RawLine → Option String
  | [] => none
  | "coding:" :: e :: _ => some e
  | _ :: rest => codingTok rest

/-- Modelled from the spec: the encoding declared by one comment line. -/
def codingOf (l : RawLine) : Option String :=
  if isCommentLine l then codingTok l else none

/-- Modelled from the spec: the file's declared text encoding, taken from a
coding declaration comment in the first two lines, defaulting to UTF-8. -/
def declaredEncoding (lines : List RawLine) : String :=
  match lines with
  | [] => "utf-8"
  | [l0] => (codingOf l0).getD "utf-8"
  | l0 :: l1 :: _ => (codingOf l0).getD ((codingOf l1).getD "utf-8")

/-- Modelled from the spec: byte encoding of one rendered line followed by a
newline byte; non-UTF-8 declared encodings are single-byte charmaps. -/
def encodeLine (enc : String) (l : RawLine) : List Nat :=
  if enc = "utf-8" then ((renderLine l).toUTF8.toList.map fun b => b.toNat) ++ [10]
  else ((renderLine l).data.map Char.toNat) ++ [10]

/-- Substring test on character lists. -/
def infixB (a : List Char) : List Char → Bool
  | [] => a.isEmpty
  | c :: rest => a.isPrefixOf (c :: rest) || infixB a rest

/-- Modelled from the spec and the test suite: the parser rejects a bare
`import` with no module, reporting the 1-based line and the column just
past the end of the malformed text. -/
def parseCheck : Nat → List RawLine → Except (Nat × Nat) Unit
  | _, [] => .ok ()
  | i, l :: rest =>
    if l = ["import"] then .error (i + 1, (renderLine l).length + 1)
    else parseCheck (i + 1) rest

/-- Modelled from the spec: the syntax-failure report text. -/
def syntaxErrorMessage (line col : Nat) : String :=
  "Syntax Error @ " ++ toString line ++ ":" ++ toString col ++ "."

/-- Per-file outcome of the driver: unchanged, rewritten, or failed. -/
inductive FileResult
  | unchanged
  | changed (out : List RawLine)
  | failed (msg : String)
deriving DecidableEq

/-- One file as the driver sees it: its path and the result of reading it
(an OS error message, or its content lines). -/
structure FsFile where
  path : String
  read : Except String (List RawLine)

/-- Modelled from the spec: one file's trip through the pipeline; read and
parse failures are captured per file, never propagated. -/
def processFile (cfg : Config) (f : FsFile) : FileResult :=
  match f.read with
  | .error e => .failed e
  | .ok lines =>
    match parseCheck 0 lines with
    | .error lc => .failed (syntaxErrorMessage lc.1 lc.2)
    | .ok _ =>
      let out := sortFile cfg lines
      if out = lines then .unchanged else .changed out

/-- Modelled from the test suite: the per-file error report line. -/
def errorLine (path msg : String) : String :=
  "Error sorting " ++ path ++ ": " ++ msg

/-- Modelled from the spec: the driver processes every file independently. -/
def formatRun (cfg : Config) (files : List FsFile) : List (String × FileResult) :=
  files.map fun f => (f.path, processFile cfg f)

/-- Modelled from the spec: the format command's user-visible output. -/
def formatOutputLines (cfg : Config) (files : List FsFile) : List String :=
  (formatRun cfg files).filterMap fun pr =>
    match pr.2 with
    | .failed m => some (errorLine pr.1 m)
    | .changed _ => some ("Sorted " ++ pr.1)
    | .unchanged => none

/-- Modelled from the spec: format writes back only changed files. -/
def formatWrites (cfg : Config) (files : List FsFile) : List (String × List RawLine) :=
  (formatRun cfg files).filterMap fun pr =>
    match pr.2 with
    | .changed out => some (pr.1, out)
    | _ => none

/-- Modelled from the spec: exit status 1 when any file failed, else 0. -/
def formatExit (cfg : Config) (files : List FsFile) : Nat :=
  if (formatRun cfg files).any
      (fun pr => match pr.2 with | .failed _ => true | _ => false)
  then 1 else 0

/-- Modelled from the spec: the block locator, recording each maximal run
of import lines with its statement-index range. -/
def blocksFrom (i : Nat) : List RawLine → List (Nat × Nat × List RawLine)
  | [] => []
  | s :: rest =>
    if isImport s then
      (i, i + (s :: rest.takeWhile isImport).length, s :: rest.takeWhile isImport)
        :: blocksFrom (i + (s :: rest.takeWhile isImport).length)
            (rest.dropWhile isImport)
    else blocksFrom (i + 1) rest
termination_by ls => ls.length
decreasing_by
  · simp only [List.length_cons]
    have : (rest.dropWhile isImport).length ≤ rest.length := by
      induction rest with
      | nil => simp [List.dropWhile]
      | cons a as ih =>
        by_cases h : isImport a
        · simp [List.dropWhile, h]; omega
        · simp [List.dropWhile, h]
    omega
  · simp only [List.length_cons]; omega

/-- Modelled from the spec: the per-block portion of the list-imports
report. -/
def reportBlock (cfg : Config) (b : Nat × Nat × List RawLine) : List String :=
  ["  body[" ++ toString b.1 ++ ":" ++ toString b.2.1 ++ "]", "Formatted:", "[[["]
    ++ (processRun cfg b.2.2).map renderLine ++ ["]]]"]

/-- Modelled from the spec: the list-imports report for one file. -/
def listImportsReport (cfg : Config) (path : String) (lines : List RawLine) :
    List String :=
  (path ++ " " ++ toString (blocksFrom 0 lines).length ++ " blocks:")
    :: (blocksFrom 0 lines).flatMap (reportBlock cfg)

/-- Durations in the timing model are exact rationals of seconds. -/
abbrev Duration := ℚ

/-- Python's `int()` truncation toward zero, applied to the duration scaled
to microseconds, as in `int(duration*1000000)`. -/
def micros (d : Duration) : ℤ := (d.num * 1000000).tdiv d.den

/-- A run of spaces, the padding of Python's width format specifiers. -/
def spacesStr (n : Nat) : String := String.mk (List.replicate n ' ')

/-- Left-justify a string in a field of the given width, as `f"{s:50}"`. -/
def padRightStr (s : String) (w : Nat) : String := s ++ spacesStr (w - s.length)

/-- Right-justify a string in a field of the given width, as `f"{n:7}"`. -/
def padLeftStr (s : String) (w : Nat) : String := spacesStr (w - s.length) ++ s

/-- One printed timing line, `f"{msg + ':':50} {int(duration*1000000):7} µs"`. -/
def timingLine (msg : String) (d : Duration) : String :=
  padRightStr (msg ++ ":") 50 ++ " " ++ padLeftStr (toString (micros d)) 7 ++ " µs"

/-- The body of `print_timings`: one line per stored timing entry. -/
def print_timings (ts : List (String × Duration)) : List String :=
  ts.map fun t => timingLine t.1 t.2

/-- Modelled from the spec: the timing entries a benchmark run records, one
walking phase for the root plus parsing and sorting phases per file (the
parsing label is the one built by `try_parse` in `util.py`). -/
def benchmarkTimings (root : String) (files : List (String × Duration × Duration))
    (walkDur : Duration) : List (String × Duration) :=
  ("walking " ++ root, walkDur)
    :: files.flatMap fun f => [("parsing " ++ f.1, f.2.1), ("sorting " ++ f.1, f.2.2)]

/-- The TIMINGS context variable: either unset or holding a list of
recorded `(message, duration)` entries. -/
abbrev TimState := Option (List (String × Duration))

/-- The contextvar read `TIMINGS.get()`, raising LookupError when unset. -/
def TIMINGS_get (s : TimState) : Except Unit (List (String × Duration)) :=
  match s with
  | some l => .ok l
  | none => .error ()

/-- The append attempted by `timed` after its body: `TIMINGS.get().append(...)`. -/
def timed_record (msg : String) (dur : Duration) (s : TimState) :
    Except Unit TimState :=
  match TIMINGS_get s with
  | .ok l => .ok (some (l ++ [(msg, dur)]))
  | .error e => .error e

/-- The state update of `timed` after its body, with the LookupError from an
unset TIMINGS swallowed by the `except LookupError: pass` handler. -/
def timed_after (msg : String) (dur : Duration) (s : TimState) : TimState :=
  match timed_record msg dur s with
  | .ok s2 => s2
  | .error _ => s

/-- The `timed` context manager: run the body, then record the elapsed
duration; only the recording step is guarded by the LookupError handler. -/
def timed {α E : Type} (msg : String) (dur : Duration)
    (body : TimState → Except E (TimState × α)) (s : TimState) :
    Except E (TimState × α) :=
  match body s with
  | .ok sa => .ok (timed_after msg dur sa.1, sa.2)
  | .error e => .error e

/-- A body consisting of a sequence of `timed` calls with the given
messages and durations. -/
def run_timed_ops (ops : List (String × Duration)) (s : TimState) : TimState :=
  ops.foldl (fun st op => timed_after op.1 op.2 st) s

/-- The `save_timings` context manager around a body of `timed` calls:
`TIMINGS.set([])`, run the body, extend the caller's accumulator (the `to`
argument, here `dest`) with the recorded entries, and reset TIMINGS to the
value the token saved. -/
def save_timings (ops : List (String × Duration)) (dest : List (String × Duration))
    (s : TimState) : Except Unit (TimState × List (String × Duration)) :=
  match TIMINGS_get (run_timed_ops ops (some [])) with
  | .ok recd => .ok (s, dest ++ recd)
  | .error e => .error e

/-- One grammar-dialect parse attempt result, abstract over the parser. -/
abbrev ParseFun (V E M : Type) := V → Except E M

/-- The loop of `try_parse`: attempt each version in order, returning the
first success; `acc` holds the first error seen, as in
`if parse_error is None: parse_error = e`.  An empty attempt list yields
`Except.error none`, the `Exception("unknown parse failure")` fallback. -/
def try_parse_go {V E M : Type} (parse : ParseFun V E M) :
    List V → Option E → Except (Option E) M
  | [], acc => .error acc
  | v :: rest, acc =>
    match parse v with
    | .ok m => .ok m
    | .error e => try_parse_go parse rest (some (acc.getD e))

/-- The body of `try_parse`: the known version list is ordered oldest to
newest, and `[::-1]` reverses it so the newest dialect is attempted first. -/
def try_parse {V E M : Type} (parse : ParseFun V E M) (known : List V) :
    Except (Option E) M :=
  try_parse_go parse known.reverse none

/-- Specification-side description of `try_parse`: return the first
success in attempt order; when every attempt fails, report the error of the
first (newest) attempt, not the last. -/
def firstResultSpec {V E M : Type} (parse : ParseFun V E M) :
    List V → Except (Option E) M
  | [] => .error none
  | v :: rest =>
    match parse v with
    | .ok m => .ok m
    | .error e =>
      match firstResultSpec parse rest with
      | .ok m => .ok m
      | .error _ => .error (some e)

/-- Concrete latin-1 sample file from the test suite, as token lines. -/
def latinSample : List RawLine :=
  [["#", "-*-", "coding:", "latin-1", "-*-"],
   ["import", "b"],
   ["import", "a"],
   ["s", "=", "\"µ\""]]

theorem natCmp_eq_iff {a b : Nat} : natCmp a b = .eq ↔ a = b := by
  unfold natCmp
  split_ifs with h1 h2 <;> simp <;> omega

theorem natCmp_gt_iff {a b : Nat} : natCmp a b = .gt ↔ natCmp b a = .lt := by
  unfold natCmp
  split_ifs <;> simp <;> omega

theorem natCmp_lt_trans {a b c : Nat} (h1 : natCmp a b = .lt)
    (h2 : natCmp b c = .lt) : natCmp a c = .lt := by
  unfold natCmp at h1 h2 ⊢
  split_ifs at h1 h2 ⊢ <;> simp_all <;> omega

theorem listCmp_eq_iff {α : Type} {c : α → α → Ordering}
    (hc : ∀ a b, c a b = .eq ↔ a = b) :
    ∀ as bs : List α, listCmp c as bs = .eq ↔ as = bs := by
  intro as
  induction as with
  | nil =>
    intro bs
    cases bs <;> simp [listCmp]
  | cons a as ih =>
    intro bs
    cases bs with
    | nil => simp [listCmp]
    | cons b bs =>
      cases hab : c a b with
      | lt =>
        simp only [listCmp, hab]
        constructor
        · intro h; cases h
        · intro h
          injection h with h1 h2
          exact absurd ((hc a b).mpr h1) (by simp [hab])
      | eq =>
        have hab2 : a = b := (hc a b).mp hab
        subst hab2
        simp only [listCmp, hab]
        rw [ih bs]
        simp
      | gt =>
        simp only [listCmp, hab]
        constructor
        · intro h; cases h
        · intro h
          injection h with h1 h2
          exact absurd ((hc a b).mpr h1) (by simp [hab])

theorem listCmp_gt_iff {α : Type} {c : α → α → Ordering}
    (hc : ∀ a b, c a b = .gt ↔ c b a = .lt) :
    ∀ as bs : List α, listCmp c as bs = .gt ↔ listCmp c bs as = .lt := by
  intro as
  induction as with
  | nil =>
    intro bs
    cases bs <;> simp [listCmp]
  | cons a as ih =>
    intro bs
    cases bs with
    | nil => simp [listCmp]
    | cons b bs =>
      cases hab : c a b with
      | lt =>
        have hba : c b a = .gt := (hc b a).mpr hab
        simp [listCmp, hab, hba]
      | gt =>
        have hba : c b a = .lt := (hc a b).mp hab
        simp [listCmp, hab, hba]
      | eq =>
        have hba : c b a = .eq := by
          cases hx : c b a with
          | lt => exact absurd ((hc a b).mpr hx) (by simp [hab])
          | eq => rfl
          | gt => exact absurd ((hc b a).mp hx) (by simp [hab])
        simp only [listCmp, hab, hba]
        exact ih bs

theorem listCmp_lt_trans {α : Type} {c : α → α → Ordering}
    (hceq : ∀ a b, c a b = .eq ↔ a = b)
    (hclt : ∀ a b d, c a b = .lt → c b d = .lt → c a d = .lt) :
    ∀ as bs cs : List α, listCmp c as bs = .lt → listCmp c bs cs = .lt →
      listCmp c as cs = .lt := by
  intro as
  induction as with
  | nil =>
    intro bs cs h1 h2
    cases cs with
    | nil => cases bs <;> simp [listCmp] at h2
    | cons d cs => simp [listCmp]
  | cons a as ih =>
    intro bs cs h1 h2
    cases bs with
    | nil => simp [listCmp] at h1
    | cons b bs =>
      cases cs with
      | nil => simp [listCmp] at h2
      | cons d cs =>
        cases hab : c a b with
        | gt => simp [listCmp, hab] at h1
        | lt =>
          cases hbd : c b d with
          | gt => simp [listCmp, hbd] at h2
          | lt =>
            have had : c a d = .lt := hclt a b d hab hbd
            simp [listCmp, had]
          | eq =>
            have hb : b = d := (hceq b d).mp hbd
            subst hb
            simp [listCmp, hab]
        | eq =>
          have hb : a = b := (hceq a b).mp hab
          subst hb
          simp only [listCmp, hab] at h1
          cases had : c a d with
          | gt => simp [listCmp, had] at h2
          | lt => simp [listCmp, had]
          | eq =>
            simp only [listCmp, had] at h2
            simp only [listCmp, had]
            exact ih bs cs h1 h2

theorem codesCmp_eq_iff {as bs : List Nat} :
    listCmp natCmp as bs = .eq ↔ as = bs :=
  listCmp_eq_iff (fun _ _ => natCmp_eq_iff) as bs

theorem codesCmp_gt_iff {as bs : List Nat} :
    listCmp natCmp as bs = .gt ↔ listCmp natCmp bs as = .lt :=
  listCmp_gt_iff (fun _ _ => natCmp_gt_iff) as bs

theorem codesCmp_lt_trans {as bs cs : List Nat}
    (h1 : listCmp natCmp as bs = .lt) (h2 : listCmp natCmp bs cs = .lt) :
    listCmp natCmp as cs = .lt :=
  listCmp_lt_trans (fun _ _ => natCmp_eq_iff)
    (fun _ _ _ => natCmp_lt_trans) as bs cs h1 h2

theorem keyCmp_eq_iff {a b : SortKey} : keyCmp a b = .eq ↔ a = b :=
  listCmp_eq_iff (fun _ _ => codesCmp_eq_iff) a b

theorem keyCmp_gt_iff {a b : SortKey} :
    keyCmp a b = .gt ↔ keyCmp b a = .lt :=
  listCmp_gt_iff (fun _ _ => codesCmp_gt_iff) a b

theorem keyCmp_lt_trans {a b c : SortKey} (h1 : keyCmp a b = .lt)
    (h2 : keyCmp b c = .lt) : keyCmp a c = .lt :=
  listCmp_lt_trans (fun _ _ => codesCmp_eq_iff)
    (fun _ _ _ => codesCmp_lt_trans) a b c h1 h2

theorem keyLE_total (a b : SortKey) : keyLE a b ∨ keyLE b a := by
  by_cases h : keyCmp a b = .gt
  · right
    intro h2
    rw [keyCmp_gt_iff] at h
    rw [h2] at h
    cases h
  · left
    exact h

theorem keyLE_trans {a b c : SortKey} (h1 : keyLE a b) (h2 : keyLE b c) :
    keyLE a c := by
  unfold keyLE at h1 h2 ⊢
  cases o1 : keyCmp a b with
  | gt => exact absurd o1 h1
  | eq =>
    have : a = b := keyCmp_eq_iff.mp o1
    subst this
    exact h2
  | lt =>
    cases o2 : keyCmp b c with
    | gt => exact absurd o2 h2
    | eq =>
      have : b = c := keyCmp_eq_iff.mp o2
      subst this
      rw [o1]
      simp
    | lt =>
      rw [keyCmp_lt_trans o1 o2]
      simp

theorem lineLE_total (cfg : Config) (a b : RawLine) :
    lineLE cfg a b ∨ lineLE cfg b a := keyLE_total _ _

theorem lineLE_trans (cfg : Config) {a b c : RawLine} (h1 : lineLE cfg a b)
    (h2 : lineLE cfg b c) : lineLE cfg a c := keyLE_trans h1 h2

theorem isFrom_shape {s : RawLine} (h : isFrom s = true) :
    s = "from" :: pathOf s :: "import" :: namesOf s := by
  cases s with
  | nil => simp [isFrom] at h
  | cons f t =>
    cases t with
    | nil => simp [isFrom] at h
    | cons p t2 =>
      cases t2 with
      | nil => simp [isFrom] at h
      | cons i ns =>
        have h2 : f = "from" ∧ i = "import" := by
          simpa [isFrom] using h
        obtain ⟨rfl, rfl⟩ := h2
        simp [pathOf, namesOf, isFrom, List.drop]

theorem isFrom_head {s : RawLine} (h : isFrom s = true) :
    s.head? = some "from" := by
  rw [isFrom_shape h]
  rfl

theorem isPlain_head {s : RawLine} (h : isPlain s = true) :
    s.head? = some "import" := by
  cases s with
  | nil => simp [isPlain] at h
  | cons f t =>
    cases t with
    | nil => simp [isPlain] at h
    | cons p t2 =>
      have h2 : f = "import" := by simpa [isPlain] using h
      subst h2
      rfl

theorem isImport_head {s : RawLine} (h : isImport s = true) :
    s.head? = some "from" ∨ s.head? = some "import" := by
  by_cases hf : isFrom s = true
  · exact Or.inl (isFrom_head hf)
  · have hp : isPlain s = true := by
      cases hp2 : isPlain s
      · rw [Bool.not_eq_true] at hf
        simp [isImport, hf, hp2] at h
      · rfl
    exact Or.inr (isPlain_head hp)

theorem isCommentLine_not_import {l : RawLine} (h : isCommentLine l = true) :
    isImport l = false := by
  by_contra hc
  have h2 : isImport l = true := by
    cases hx : isImport l
    · exact absurd hx hc
    · rfl
  have h3 := isImport_head h2
  unfold isCommentLine at h
  have h4 : l.head? = some "#" := of_decide_eq_true h
  rcases h3 with h5 | h5 <;> rw [h5] at h4 <;> simp at h4

theorem isImport_no_skip {l : RawLine} (h : isImport l = true) :
    "usort:skip" ∉ l := by
  intro hmem
  have h2 : hasSkipDirective l = true := decide_eq_true hmem
  simp [isImport, h2] at h

theorem isFrom_mkMerged (p : String) (ns : List Token) :
    isFrom (mkMerged p ns) = true := rfl

theorem pathOf_mkMerged (p : String) (ns : List Token) :
    pathOf (mkMerged p ns) = p := rfl

theorem namesOf_mkMerged (p : String) (ns : List Token) :
    namesOf (mkMerged p ns) = ns := rfl

theorem sameFrom_mkMerged (p q : String) (ns : List Token) :
    sameFrom p (mkMerged q ns) = decide (q = p) := by
  simp [sameFrom, isFrom_mkMerged, pathOf_mkMerged]

theorem sameFrom_isFrom {p : String} {l : RawLine} (h : sameFrom p l = true) :
    isFrom l = true := by
  simp [sameFrom] at h
  exact h.1

theorem sameFrom_path {p : String} {l : RawLine} (h : sameFrom p l = true) :
    pathOf l = p := by
  simp [sameFrom] at h
  exact h.2

theorem isFrom_false_of_not {s : RawLine} (h : ¬isFrom s = true) :
    isFrom s = false := by
  cases hx : isFrom s
  · rfl
  · exact absurd hx h

theorem mergeAux_filter_frozen (p : String) :
    ∀ (frozen : List String) (r : List RawLine), p ∈ frozen →
      (mergeAux frozen r).filter (sameFrom p) = r.filter (sameFrom p) := by
  intro frozen r
  induction frozen, r using mergeAux.induct with
  | case1 frozen =>
    intro _
    rw [mergeAux]
  | case2 frozen s rest h1 h2 ih =>
    intro hp
    rw [mergeAux, if_pos h1, if_pos h2]
    simp only [List.filter_cons]
    rw [ih hp]
  | case3 frozen s rest h1 h2 h3 ih =>
    intro hp
    have hqp : pathOf s ≠ p := fun he => h2 (he ▸ hp)
    have hs : sameFrom p s = false := by simp [sameFrom, hqp]
    rw [mergeAux, if_pos h1, if_neg h2, if_pos h3]
    simp only [List.filter_cons, hs]
    simp only [Bool.false_eq_true, if_false]
    rw [ih hp]
  | case4 frozen s rest h1 h2 h3 h4 ih =>
    intro hp
    have hqp : pathOf s ≠ p := fun he => h2 (he ▸ hp)
    have hs : sameFrom p s = false := by simp [sameFrom, hqp]
    rw [mergeAux, if_pos h1, if_neg h2, if_neg h3, if_pos h4]
    simp only [List.filter_cons, hs]
    simp only [Bool.false_eq_true, if_false]
    rw [ih (List.mem_cons_of_mem _ hp)]
  | case5 frozen s rest h1 h2 h3 h4 ih =>
    intro hp
    have hqp : pathOf s ≠ p := fun he => h2 (he ▸ hp)
    have hs : sameFrom p s = false := by simp [sameFrom, hqp]
    have hm : sameFrom p
        (mkMerged (pathOf s)
          (mergedNames (s :: rest.filter (sameFrom (pathOf s))))) = false := by
      rw [sameFrom_mkMerged]
      simp [hqp]
    rw [mergeAux, if_pos h1, if_neg h2, if_neg h3, if_neg h4]
    simp only [List.filter_cons, hm, hs]
    simp only [Bool.false_eq_true, if_false]
    rw [ih hp, List.filter_filter]
    apply List.filter_congr
    intro a _
    cases hpa : sameFrom p a
    · simp
    · have hqa : sameFrom (pathOf s) a = false := by
        have hpath := sameFrom_path hpa
        cases hxa : sameFrom (pathOf s) a
        · rfl
        · exfalso
          apply hqp
          rw [← sameFrom_path hxa]
          exact hpath
      simp [hqa]
  | case6 frozen s rest h1 ih =>
    intro hp
    have hs : sameFrom p s = false := by
      simp [sameFrom, isFrom_false_of_not h1]
    rw [mergeAux, if_neg h1]
    simp only [List.filter_cons, hs]
    simp only [Bool.false_eq_true, if_false]
    rw [ih hp]

theorem mergeAux_filter_none (p : String) :
    ∀ (frozen : List String) (r : List RawLine),
      (∀ x ∈ r, sameFrom p x = false) →
      (mergeAux frozen r).filter (sameFrom p) = [] := by
  intro frozen r
  induction frozen, r using mergeAux.induct with
  | case1 frozen =>
    intro _
    rw [mergeAux]
    rfl
  | case2 frozen s rest h1 h2 ih =>
    intro hall
    have hs := hall s (List.mem_cons_self s rest)
    rw [mergeAux, if_pos h1, if_pos h2]
    simp only [List.filter_cons, hs, Bool.false_eq_true, if_false]
    exact ih fun x hx => hall x (List.mem_cons_of_mem _ hx)
  | case3 frozen s rest h1 h2 h3 ih =>
    intro hall
    have hs := hall s (List.mem_cons_self s rest)
    rw [mergeAux, if_pos h1, if_neg h2, if_pos h3]
    simp only [List.filter_cons, hs, Bool.false_eq_true, if_false]
    exact ih fun x hx => hall x (List.mem_cons_of_mem _ hx)
  | case4 frozen s rest h1 h2 h3 h4 ih =>
    intro hall
    have hs := hall s (List.mem_cons_self s rest)
    rw [mergeAux, if_pos h1, if_neg h2, if_neg h3, if_pos h4]
    simp only [List.filter_cons, hs, Bool.false_eq_true, if_false]
    exact ih fun x hx => hall x (List.mem_cons_of_mem _ hx)
  | case5 frozen s rest h1 h2 h3 h4 ih =>
    intro hall
    have hs := hall s (List.mem_cons_self s rest)
    have hqp : pathOf s ≠ p := by
      intro he
      have : sameFrom p s = true := by simp [sameFrom, h1, he]
      rw [this] at hs
      cases hs
    have hm : sameFrom p
        (mkMerged (pathOf s)
          (mergedNames (s :: rest.filter (sameFrom (pathOf s))))) = false := by
      rw [sameFrom_mkMerged]
      simp [hqp]
    rw [mergeAux, if_pos h1, if_neg h2, if_neg h3, if_neg h4]
    simp only [List.filter_cons, hm, Bool.false_eq_true, if_false]
    exact ih fun x hx => hall x (List.mem_cons_of_mem _ (List.mem_of_mem_filter hx))
  | case6 frozen s rest h1 ih =>
    intro hall
    have hs := hall s (List.mem_cons_self s rest)
    rw [mergeAux, if_neg h1]
    simp only [List.filter_cons, hs, Bool.false_eq_true, if_false]
    exact ih fun x hx => hall x (List.mem_cons_of_mem _ hx)

theorem mergeAux_groups :
    ∀ (frozen : List String) (r : List RawLine) (p : String), p ∉ frozen →
      ((mergeAux frozen r).filter (sameFrom p)).length ≤ 1 ∨
      ((mergeAux frozen r).filter (sameFrom p)).any isWild = true := by
  intro frozen r
  induction frozen, r using mergeAux.induct with
  | case1 frozen =>
    intro p _
    left
    rw [mergeAux]
    simp
  | case2 frozen s rest h1 h2 ih =>
    intro p hp
    have hqp : pathOf s ≠ p := fun he => hp (he ▸ h2)
    have hs : sameFrom p s = false := by simp [sameFrom, hqp]
    rw [mergeAux, if_pos h1, if_pos h2]
    simp only [List.filter_cons, hs, Bool.false_eq_true, if_false]
    exact ih p hp
  | case3 frozen s rest h1 h2 h3 ih =>
    intro p hp
    rw [mergeAux, if_pos h1, if_neg h2, if_pos h3]
    by_cases hqp : pathOf s = p
    · subst hqp
      have hs : sameFrom (pathOf s) s = true := by simp [sameFrom, h1]
      have hrest : ∀ x ∈ rest, sameFrom (pathOf s) x = false := by
        intro x hx
        cases hq : sameFrom (pathOf s) x
        · rfl
        · exfalso
          have hmem : x ∈ rest.filter (sameFrom (pathOf s)) :=
            List.mem_filter.mpr ⟨hx, hq⟩
          rw [h3] at hmem
          cases hmem
      have hmerge := mergeAux_filter_none (pathOf s) frozen rest hrest
      left
      simp only [List.filter_cons, hs, if_pos, if_true, hmerge]
      simp
    · have hs : sameFrom p s = false := by simp [sameFrom, hqp]
      simp only [List.filter_cons, hs, Bool.false_eq_true, if_false]
      exact ih p hp
  | case4 frozen s rest h1 h2 h3 h4 ih =>
    intro p hp
    rw [mergeAux, if_pos h1, if_neg h2, if_neg h3, if_pos h4]
    by_cases hqp : pathOf s = p
    · subst hqp
      right
      have hs : sameFrom (pathOf s) s = true := by simp [sameFrom, h1]
      have hA := mergeAux_filter_frozen (pathOf s) (pathOf s :: frozen) rest
        (List.mem_cons_self _ _)
      simp only [List.filter_cons, hs, if_true, hA, List.any_cons]
      exact h4
    · have hs : sameFrom p s = false := by simp [sameFrom, hqp]
      have hp2 : p ∉ pathOf s :: frozen := by
        intro hm
        rcases List.mem_cons.mp hm with he | hm2
        · exact hqp he.symm
        · exact hp hm2
      simp only [List.filter_cons, hs, Bool.false_eq_true, if_false]
      exact ih p hp2
  | case5 frozen s rest h1 h2 h3 h4 ih =>
    intro p hp
    rw [mergeAux, if_pos h1, if_neg h2, if_neg h3, if_neg h4]
    by_cases hqp : pathOf s = p
    · subst hqp
      left
      have hm : sameFrom (pathOf s)
          (mkMerged (pathOf s)
            (mergedNames (s :: rest.filter (sameFrom (pathOf s))))) = true := by
        rw [sameFrom_mkMerged]
        simp
      have hrf : ∀ x ∈ rest.filter (fun l => !sameFrom (pathOf s) l),
          sameFrom (pathOf s) x = false := by
        intro x hx
        have hx2 := (List.mem_filter.mp hx).2
        simpa using hx2
      have hmerge := mergeAux_filter_none (pathOf s) frozen _ hrf
      simp only [List.filter_cons, hm, if_true, hmerge]
      simp
    · have hm : sameFrom p
          (mkMerged (pathOf s)
            (mergedNames (s :: rest.filter (sameFrom (pathOf s))))) = false := by
        rw [sameFrom_mkMerged]
        simp [hqp]
      simp only [List.filter_cons, hm, Bool.false_eq_true, if_false]
      exact ih p hp
  | case6 frozen s rest h1 ih =>
    intro p hp
    have hs : sameFrom p s = false := by
      simp [sameFrom, isFrom_false_of_not h1]
    rw [mergeAux, if_neg h1]
    simp only [List.filter_cons, hs, Bool.false_eq_true, if_false]
    exact ih p hp

theorem mergeAux_fixed :
    ∀ (frozen : List String) (r : List RawLine),
      (∀ p, p ∉ frozen →
        ((r.filter (sameFrom p)).length ≤ 1 ∨
          (r.filter (sameFrom p)).any isWild = true)) →
      mergeAux frozen r = r := by
  intro frozen r
  induction frozen, r using mergeAux.induct with
  | case1 frozen =>
    intro _
    rw [mergeAux]
  | case2 frozen s rest h1 h2 ih =>
    intro hcond
    rw [mergeAux, if_pos h1, if_pos h2]
    congr 1
    apply ih
    intro p hp
    have hqp : pathOf s ≠ p := fun he => hp (he ▸ h2)
    have hs : sameFrom p s = false := by simp [sameFrom, hqp]
    have hc := hcond p hp
    simpa [List.filter_cons, hs] using hc
  | case3 frozen s rest h1 h2 h3 ih =>
    intro hcond
    rw [mergeAux, if_pos h1, if_neg h2, if_pos h3]
    congr 1
    apply ih
    intro p hp
    by_cases hqp : pathOf s = p
    · subst hqp
      left
      rw [h3]
      simp
    · have hs : sameFrom p s = false := by simp [sameFrom, hqp]
      have hc := hcond p hp
      simpa [List.filter_cons, hs] using hc
  | case4 frozen s rest h1 h2 h3 h4 ih =>
    intro hcond
    rw [mergeAux, if_pos h1, if_neg h2, if_neg h3, if_pos h4]
    congr 1
    apply ih
    intro p hp
    have hp2 : p ∉ frozen := fun hm => hp (List.mem_cons_of_mem _ hm)
    have hqp : pathOf s ≠ p := fun he => hp (he ▸ List.mem_cons_self _ _)
    have hs : sameFrom p s = false := by simp [sameFrom, hqp]
    have hc := hcond p hp2
    simpa [List.filter_cons, hs] using hc
  | case5 frozen s rest h1 h2 h3 h4 ih =>
    intro hcond
    exfalso
    have hc := hcond (pathOf s) h2
    have hs : sameFrom (pathOf s) s = true := by simp [sameFrom, h1]
    rcases hc with hlen | hwild
    · simp only [List.filter_cons, hs, if_true, List.length_cons] at hlen
      have hnil : rest.filter (sameFrom (pathOf s)) = [] :=
        List.eq_nil_of_length_eq_zero (by omega)
      exact h3 hnil
    · simp only [List.filter_cons, hs, if_true, List.any_cons] at hwild
      rw [hwild] at h4
      exact h4 rfl
  | case6 frozen s rest h1 ih =>
    intro hcond
    rw [mergeAux, if_neg h1]
    congr 1
    apply ih
    intro p hp
    have hs : sameFrom p s = false := by
      simp [sameFrom, isFrom_false_of_not h1]
    have hc := hcond p hp
    simpa [List.filter_cons, hs] using hc

theorem mergeAux_ne_nil (frozen : List String) (s : RawLine)
    (rest : List RawLine) : mergeAux frozen (s :: rest) ≠ [] := by
  rw [mergeAux]
  split_ifs <;> simp

theorem isImport_mkMerged {s : RawLine} {rest : List RawLine}
    (h1 : isFrom s = true) (hs : isImport s = true)
    (hall : ∀ x ∈ rest.filter (sameFrom (pathOf s)), isImport x = true) :
    isImport (mkMerged (pathOf s)
      (mergedNames (s :: rest.filter (sameFrom (pathOf s))))) = true := by
  have hskip : "usort:skip" ∉ mkMerged (pathOf s)
      (mergedNames (s :: rest.filter (sameFrom (pathOf s)))) := by
    intro hmem
    unfold mkMerged at hmem
    rcases List.mem_cons.mp hmem with he | hmem2
    · exact absurd he (by decide)
    rcases List.mem_cons.mp hmem2 with he | hmem3
    · have hshape := isFrom_shape h1
      have hin : "usort:skip" ∈ s := by
        rw [hshape, ← he]
        exact List.mem_cons_of_mem _ (List.mem_cons_self _ _)
      exact isImport_no_skip hs hin
    rcases List.mem_cons.mp hmem3 with he | hmem4
    · exact absurd he (by decide)
    · unfold mergedNames at hmem4
      have hmem5 : "usort:skip" ∈
          ((s :: rest.filter (sameFrom (pathOf s))).flatMap namesOf).dedup :=
        (List.perm_insertionSort tokenLE _).mem_iff.mp hmem4
      rw [List.mem_dedup] at hmem5
      rcases List.mem_flatMap.mp hmem5 with ⟨t, ht, hnt⟩
      have htimp : isImport t = true := by
        rcases List.mem_cons.mp ht with rfl | ht2
        · exact hs
        · exact hall t ht2
      have htfrom : isFrom t = true := by
        rcases List.mem_cons.mp ht with rfl | ht2
        · exact h1
        · exact sameFrom_isFrom (List.mem_filter.mp ht2).2
      have hnt2 : "usort:skip" ∈ t := by
        unfold namesOf at hnt
        rw [if_pos htfrom] at hnt
        exact List.drop_subset 3 t hnt
      exact isImport_no_skip htimp hnt2
  have hskip2 : hasSkipDirective (mkMerged (pathOf s)
      (mergedNames (s :: rest.filter (sameFrom (pathOf s))))) = false := by
    unfold hasSkipDirective
    exact decide_eq_false hskip
  simp [isImport, isFrom_mkMerged, hskip2]

theorem mergeAux_imports :
    ∀ (frozen : List String) (r : List RawLine),
      (∀ x ∈ r, isImport x = true) →
      ∀ y ∈ mergeAux frozen r, isImport y = true := by
  intro frozen r
  induction frozen, r using mergeAux.induct with
  | case1 frozen =>
    intro _ y hy
    rw [mergeAux] at hy
    cases hy
  | case2 frozen s rest h1 h2 ih =>
    intro hall y hy
    rw [mergeAux, if_pos h1, if_pos h2] at hy
    rcases List.mem_cons.mp hy with rfl | hy2
    · exact hall y (List.mem_cons_self _ _)
    · exact ih (fun x hx => hall x (List.mem_cons_of_mem _ hx)) y hy2
  | case3 frozen s rest h1 h2 h3 ih =>
    intro hall y hy
    rw [mergeAux, if_pos h1, if_neg h2, if_pos h3] at hy
    rcases List.mem_cons.mp hy with rfl | hy2
    · exact hall y (List.mem_cons_self _ _)
    · exact ih (fun x hx => hall x (List.mem_cons_of_mem _ hx)) y hy2
  | case4 frozen s rest h1 h2 h3 h4 ih =>
    intro hall y hy
    rw [mergeAux, if_pos h1, if_neg h2, if_neg h3, if_pos h4] at hy
    rcases List.mem_cons.mp hy with rfl | hy2
    · exact hall y (List.mem_cons_self _ _)
    · exact ih (fun x hx => hall x (List.mem_cons_of_mem _ hx)) y hy2
  | case5 frozen s rest h1 h2 h3 h4 ih =>
    intro hall y hy
    rw [mergeAux, if_pos h1, if_neg h2, if_neg h3, if_neg h4] at hy
    rcases List.mem_cons.mp hy with rfl | hy2
    · exact isImport_mkMerged h1 (hall s (List.mem_cons_self _ _))
        (fun x hx => hall x (List.mem_cons_of_mem _ (List.mem_of_mem_filter hx)))
    · exact ih
        (fun x hx => hall x (List.mem_cons_of_mem _ (List.mem_of_mem_filter hx)))
        y hy2
  | case6 frozen s rest h1 ih =>
    intro hall y hy
    rw [mergeAux, if_neg h1] at hy
    rcases List.mem_cons.mp hy with rfl | hy2
    · exact hall y (List.mem_cons_self _ _)
    · exact ih (fun x hx => hall x (List.mem_cons_of_mem _ hx)) y hy2

theorem any_of_perm {α : Type} {l1 l2 : List α} (h : l1.Perm l2)
    (f : α → Bool) : l1.any f = l2.any f := by
  cases h1 : l1.any f
  · cases h2 : l2.any f
    · rfl
    · exfalso
      rcases List.any_eq_true.mp h2 with ⟨x, hx, hfx⟩
      have h3 : l1.any f = true := List.any_eq_true.mpr ⟨x, h.mem_iff.mpr hx, hfx⟩
      rw [h1] at h3
      cases h3
  · rcases List.any_eq_true.mp h1 with ⟨x, hx, hfx⟩
    exact (List.any_eq_true.mpr ⟨x, h.mem_iff.mp hx, hfx⟩).symm

theorem processRun_idem (cfg : Config) (r : List RawLine) :
    processRun cfg (processRun cfg r) = processRun cfg r := by
  unfold processRun
  have hperm : (sortRun cfg (mergeRun r)).Perm (mergeRun r) :=
    List.perm_insertionSort _ _
  have hfix : mergeRun (sortRun cfg (mergeRun r)) = sortRun cfg (mergeRun r) := by
    apply mergeAux_fixed
    intro p _
    have hcond : ((mergeRun r).filter (sameFrom p)).length ≤ 1 ∨
        ((mergeRun r).filter (sameFrom p)).any isWild = true :=
      mergeAux_groups [] r p (by simp)
    have hfperm := hperm.filter (sameFrom p)
    rcases hcond with hlen | hany
    · left
      rw [hfperm.length_eq]
      exact hlen
    · right
      rw [any_of_perm hfperm]
      exact hany
  rw [hfix]
  have hsorted : List.Sorted (lineLE cfg) (sortRun cfg (mergeRun r)) := by
    haveI : IsTotal RawLine (lineLE cfg) := ⟨fun a b => lineLE_total cfg a b⟩
    haveI : IsTrans RawLine (lineLE cfg) :=
      ⟨fun _ _ _ h1 h2 => lineLE_trans cfg h1 h2⟩
    exact List.sorted_insertionSort _ _
  unfold sortRun at hsorted ⊢
  exact List.Sorted.insertionSort_eq hsorted

theorem processRun_imports (cfg : Config) {r : List RawLine}
    (hall : ∀ x ∈ r, isImport x = true) :
    ∀ y ∈ processRun cfg r, isImport y = true := by
  intro y hy
  unfold processRun sortRun at hy
  have hy2 : y ∈ mergeRun r := (List.perm_insertionSort _ _).mem_iff.mp hy
  exact mergeAux_imports [] r hall y hy2

theorem processRun_ne_nil (cfg : Config) (s : RawLine) (rest : List RawLine) :
    processRun cfg (s :: rest) ≠ [] := by
  unfold processRun sortRun
  intro h
  have hlen :=
    (List.perm_insertionSort (lineLE cfg) (mergeRun (s :: rest))).length_eq
  rw [h] at hlen
  apply mergeAux_ne_nil [] s rest
  apply List.eq_nil_of_length_eq_zero
  simpa using hlen.symm

theorem processRun_single (cfg : Config) (x : RawLine) :
    processRun cfg [x] = [x] := by
  unfold processRun mergeRun
  have hm : mergeAux [] [x] = [x] := by
    apply mergeAux_fixed
    intro p _
    left
    simpa using List.length_filter_le (sameFrom p) [x]
  rw [hm]
  unfold sortRun
  simp [List.insertionSort, List.orderedInsert]

theorem takeWhile_append_all {α : Type} {p : α → Bool} :
    ∀ {r t : List α}, (∀ x ∈ r, p x = true) →
      (r ++ t).takeWhile p = r ++ t.takeWhile p := by
  intro r
  induction r with
  | nil =>
    intro t _
    simp
  | cons a as ih =>
    intro t hall
    have ha := hall a (List.mem_cons_self _ _)
    simp only [List.cons_append, List.takeWhile_cons, ha, if_true]
    rw [ih fun x hx => hall x (List.mem_cons_of_mem _ hx)]

theorem dropWhile_append_all {α : Type} {p : α → Bool} :
    ∀ {r t : List α}, (∀ x ∈ r, p x = true) →
      (r ++ t).dropWhile p = t.dropWhile p := by
  intro r
  induction r with
  | nil =>
    intro t _
    simp
  | cons a as ih =>
    intro t hall
    have ha := hall a (List.mem_cons_self _ _)
    simp only [List.cons_append, List.dropWhile_cons, ha, if_true]
    exact ih fun x hx => hall x (List.mem_cons_of_mem _ hx)

theorem takeWhile_nil_of_head {α : Type} {p : α → Bool} {t : List α}
    (h : t = [] ∨ ∃ a as, t = a :: as ∧ p a = false) :
    t.takeWhile p = [] ∧ t.dropWhile p = t := by
  rcases h with rfl | ⟨a, as, rfl, ha⟩
  · simp
  · simp [List.takeWhile_cons, List.dropWhile_cons, ha]

theorem dropWhile_shape {α : Type} (p : α → Bool) :
    ∀ l : List α, l.dropWhile p = [] ∨
      ∃ a as, l.dropWhile p = a :: as ∧ p a = false := by
  intro l
  induction l with
  | nil =>
    left
    simp
  | cons a as ih =>
    cases ha : p a
    · right
      exact ⟨a, as, by simp [List.dropWhile_cons, ha], ha⟩
    · simpa [List.dropWhile_cons, ha] using ih

theorem takeWhile_pred {α : Type} {p : α → Bool} :
    ∀ {l : List α} {x : α}, x ∈ l.takeWhile p → p x = true := by
  intro l
  induction l with
  | nil =>
    intro x hx
    simp at hx
  | cons a as ih =>
    intro x hx
    cases ha : p a
    · simp [List.takeWhile_cons, ha] at hx
    · simp only [List.takeWhile_cons, ha, if_true] at hx
      rcases List.mem_cons.mp hx with rfl | hx2
      · exact ha
      · exact ih hx2

theorem sortFile_nil (cfg : Config) : sortFile cfg [] = [] := by
  rw [sortFile]

theorem sortFile_cons_other (cfg : Config) {s : RawLine}
    (h : isImport s = false) (rest : List RawLine) :
    sortFile cfg (s :: rest) = s :: sortFile cfg rest := by
  rw [sortFile]
  simp [h]

theorem sortFile_cons_import (cfg : Config) {s : RawLine}
    (h : isImport s = true) (rest : List RawLine) :
    sortFile cfg (s :: rest) =
      processRun cfg (s :: rest.takeWhile isImport)
        ++ sortFile cfg (rest.dropWhile isImport) := by
  rw [sortFile]
  simp [h]

theorem sortFile_shape (cfg : Config) (t : List RawLine)
    (h : t = [] ∨ ∃ a as, t = a :: as ∧ isImport a = false) :
    sortFile cfg t = [] ∨
      ∃ a as, sortFile cfg t = a :: as ∧ isImport a = false := by
  rcases h with rfl | ⟨a, as, rfl, ha⟩
  · left
    exact sortFile_nil cfg
  · right
    exact ⟨a, sortFile cfg as, by rw [sortFile_cons_other cfg ha], ha⟩

theorem sortFile_append_run (cfg : Config) {r t : List RawLine} (hr : r ≠ [])
    (hall : ∀ x ∈ r, isImport x = true)
    (ht : t = [] ∨ ∃ a as, t = a :: as ∧ isImport a = false) :
    sortFile cfg (r ++ t) = processRun cfg r ++ sortFile cfg t := by
  obtain ⟨x, r2, rfl⟩ : ∃ x r2, r = x :: r2 := by
    cases r with
    | nil => exact absurd rfl hr
    | cons x r2 => exact ⟨x, r2, rfl⟩
  have hx : isImport x = true := hall x (List.mem_cons_self _ _)
  have hr2 : ∀ y ∈ r2, isImport y = true :=
    fun y hy => hall y (List.mem_cons_of_mem _ hy)
  obtain ⟨htw, hdw⟩ := takeWhile_nil_of_head ht
  rw [List.cons_append, sortFile_cons_import cfg hx,
    takeWhile_append_all hr2, htw, List.append_nil,
    dropWhile_append_all hr2, hdw]

theorem sortFile_idem (cfg : Config) :
    ∀ ls : List RawLine, sortFile cfg (sortFile cfg ls) = sortFile cfg ls := by
  intro ls
  induction ls using sortFile.induct cfg with
  | case1 => simp [sortFile_nil]
  | case2 s rest h ih =>
    rw [sortFile_cons_import cfg h]
    have hallrun : ∀ x ∈ s :: rest.takeWhile isImport, isImport x = true := by
      intro x hx
      rcases List.mem_cons.mp hx with rfl | hx2
      · exact h
      · exact takeWhile_pred hx2
    have hrunimp := processRun_imports cfg hallrun
    have hrunne : processRun cfg (s :: rest.takeWhile isImport) ≠ [] :=
      processRun_ne_nil cfg s _
    have htshape := sortFile_shape cfg (rest.dropWhile isImport)
      (dropWhile_shape isImport rest)
    rw [sortFile_append_run cfg hrunne hrunimp htshape,
      processRun_idem, ih]
  | case3 s rest h ih =>
    have hf : isImport s = false := by
      cases hx : isImport s
      · rfl
      · exact absurd hx h
    rw [sortFile_cons_other cfg hf, sortFile_cons_other cfg hf, ih]

theorem filter_other_eq_nil {r : List RawLine}
    (hall : ∀ x ∈ r, isImport x = true) :
    r.filter (fun l => !isImport l) = [] := by
  induction r with
  | nil => rfl
  | cons a as ih =>
    have ha := hall a (List.mem_cons_self _ _)
    simp only [List.filter_cons, ha, Bool.not_true, Bool.false_eq_true, if_false]
    exact ih fun x hx => hall x (List.mem_cons_of_mem _ hx)

theorem sortFile_filter_other (cfg : Config) :
    ∀ ls : List RawLine,
      (sortFile cfg ls).filter (fun l => !isImport l) =
        ls.filter (fun l => !isImport l) := by
  intro ls
  induction ls using sortFile.induct cfg with
  | case1 => simp [sortFile_nil]
  | case2 s rest h ih =>
    rw [sortFile_cons_import cfg h, List.filter_append]
    have hallrun : ∀ x ∈ s :: rest.takeWhile isImport, isImport x = true := by
      intro x hx
      rcases List.mem_cons.mp hx with rfl | hx2
      · exact h
      · exact takeWhile_pred hx2
    have hrun := filter_other_eq_nil (processRun_imports cfg hallrun)
    rw [hrun, List.nil_append, ih]
    have hs : (!isImport s) = false := by rw [h]; rfl
    have hrhs : (s :: rest).filter (fun l => !isImport l) =
        (rest.dropWhile isImport).filter (fun l => !isImport l) := by
      simp only [List.filter_cons, hs, Bool.false_eq_true, if_false]
      conv_lhs =>
        rw [← List.takeWhile_append_dropWhile (p := isImport) (l := rest)]
      rw [List.filter_append,
        filter_other_eq_nil (fun x hx => takeWhile_pred hx),
        List.nil_append]
    rw [hrhs]
  | case3 s rest h ih =>
    have hf : isImport s = false := by
      cases hx : isImport s
      · rfl
      · exact absurd hx h
    rw [sortFile_cons_other cfg hf]
    simp only [List.filter_cons, hf, Bool.not_false, if_true]
    rw [ih]

theorem codingOf_some_not_import {l : RawLine} {e : String}
    (h : codingOf l = some e) : isImport l = false := by
  unfold codingOf at h
  by_cases hc : isCommentLine l = true
  · exact isCommentLine_not_import hc
  · rw [if_neg hc] at h
    cases h

theorem declaredEncoding_cons_some {l0 : RawLine} {e : String}
    (h : codingOf l0 = some e) (t : List RawLine) :
    declaredEncoding (l0 :: t) = e := by
  cases t <;> simp [declaredEncoding, h]

theorem declaredEncoding_sortFile (cfg : Config) (lines : List RawLine)
    (enc : String) (hne : enc ≠ "utf-8") (h : declaredEncoding lines = enc) :
    declaredEncoding (sortFile cfg lines) = enc := by
  cases lines with
  | nil =>
    exfalso
    apply hne
    rw [← h]
    rfl
  | cons l0 t =>
    by_cases h0 : ∃ e, codingOf l0 = some e
    · obtain ⟨e, he⟩ := h0
      have himp : isImport l0 = false := codingOf_some_not_import he
      rw [sortFile_cons_other cfg himp]
      rw [declaredEncoding_cons_some he] at h
      rw [declaredEncoding_cons_some he]
      exact h
    · have hnone : codingOf l0 = none := by
        cases hx : codingOf l0 with
        | none => rfl
        | some e => exact absurd ⟨e, hx⟩ h0
      cases t with
      | nil =>
        exfalso
        apply hne
        rw [← h]
        simp [declaredEncoding, hnone]
      | cons l1 t2 =>
        have h1 : codingOf l1 = some enc := by
          cases hx : codingOf l1 with
          | none =>
            exfalso
            apply hne
            rw [← h]
            simp [declaredEncoding, hnone, hx]
          | some e1 =>
            have hd : declaredEncoding (l0 :: l1 :: t2) = e1 := by
              simp [declaredEncoding, hnone, hx]
            rw [hd] at h
            simp [hx, h]
        have h1imp : isImport l1 = false := codingOf_some_not_import h1
        by_cases h0imp : isImport l0 = true
        · rw [sortFile_cons_import cfg h0imp]
          have htw : (l1 :: t2).takeWhile isImport = [] := by
            simp [List.takeWhile_cons, h1imp]
          have hdw : (l1 :: t2).dropWhile isImport = l1 :: t2 := by
            simp [List.dropWhile_cons, h1imp]
          rw [htw, hdw, processRun_single, sortFile_cons_other cfg h1imp,
            List.singleton_append]
          simp [declaredEncoding, hnone, h1]
        · have h0f : isImport l0 = false := by
            cases hx : isImport l0
            · rfl
            · exact absurd hx h0imp
          rw [sortFile_cons_other cfg h0f, sortFile_cons_other cfg h1imp]
          simp [declaredEncoding, hnone, h1]

theorem infixB_append_left (a : List Char) {t : List Char}
    (ht : infixB a t = true) : ∀ s : List Char, infixB a (s ++ t) = true := by
  intro s
  induction s with
  | nil => simpa using ht
  | cons c cs ih =>
    rw [List.cons_append]
    simp only [infixB]
    rw [ih]
    simp

theorem try_parse_go_some {V E M : Type} (parse : ParseFun V E M) :
    ∀ (as : List V) (e0 : E),
      try_parse_go parse as (some e0) =
        match firstResultSpec parse as with
        | .ok m => .ok m
        | .error _ => .error (some e0) := by
  intro as
  induction as with
  | nil =>
    intro e0
    rfl
  | cons v rest ih =>
    intro e0
    simp only [try_parse_go, firstResultSpec]
    cases hp : parse v with
    | ok m => simp
    | error e =>
      simp only []
      rw [show (some e0).getD e = e0 from rfl, ih e0]
      cases hf : firstResultSpec parse rest with
      | ok m => simp [hf]
      | error e2 => simp [hf]

theorem run_timed_ops_some :
    ∀ (ops : List (String × Duration)) (l : List (String × Duration)),
      run_timed_ops ops (some l) = some (l ++ ops) := by
  intro ops
  induction ops with
  | nil =>
    intro l
    simp [run_timed_ops]
  | cons op ops ih =>
    intro l
    simp only [run_timed_ops, List.foldl_cons]
    have h1 : timed_after op.1 op.2 (some l) = some (l ++ [op]) := rfl
    rw [h1]
    have h2 := ih (l ++ [op])
    simp only [run_timed_ops] at h2
    rw [h2, List.append_assoc, List.singleton_append]

/-- C1: the pipeline is idempotent.  For every classification table and
every input file (a list of token lines), running the
parse-classify-sort-render pipeline twice yields the same line sequence,
and hence the same rendered output bytes, as running it once. -/
theorem c1_pipeline_idempotent (cfg : Config) (x : List RawLine) :
    sortFile cfg (sortFile cfg x) = sortFile cfg x ∧
    renderFile (sortFile cfg (sortFile cfg x)) = renderFile (sortFile cfg x) :=
  ⟨sortFile_idem cfg x, by rw [sortFile_idem cfg x]⟩

/-- C2: for every parser and every known version list (ordered oldest to
newest, as LibCST's constant is), `try_parse` attempts the dialects in
reversed (newest-first) order, returns the tree of the first dialect that
succeeds, and when every dialect fails it raises the error produced by the
first-attempted (newest) dialect — exactly the behavior of the
specification-side `firstResultSpec` on the reversed list. -/
theorem c2_try_parse_newest_error {V E M : Type} (parse : ParseFun V E M)
    (known : List V) :
    try_parse parse known = firstResultSpec parse known.reverse := by
  unfold try_parse
  generalize known.reverse = as
  induction as with
  | nil => rfl
  | cons v rest ih =>
    simp only [try_parse_go, firstResultSpec]
    cases hp : parse v with
    | ok m => simp
    | error e =>
      simp only []
      rw [show (none : Option E).getD e = e from rfl, try_parse_go_some]

/-- C9: a `timed(msg)` call made while the TIMINGS context variable is
unset still runs its wrapped body normally and lets no exception escape:
the LookupError raised by `TIMINGS.get()` is swallowed by the handler and
no timing entry is recorded, so the state stays unset. -/
theorem c9_timed_unset_swallows {α E : Type} (msg : String) (dur : Duration)
    (body : TimState → Except E (TimState × α)) (a : α)
    (h : body none = .ok (none, a)) :
    timed msg dur body none = .ok (none, a) ∧
    timed_after msg dur none = none := by
  refine ⟨?_, rfl⟩
  unfold timed
  rw [h]
  exact rfl

/-- C9 witness: a concrete body run under an unset TIMINGS variable. -/
theorem c9_timed_unset_swallows_witness :
    timed "parsing sample.py" 1
      (fun s => (Except.ok (s, 42) : Except Unit (TimState × Nat))) none
      = .ok (none, 42) ∧
    timed_after "parsing sample.py" 1 none = none :=
  c9_timed_unset_swallows "parsing sample.py" 1
    (fun s => (Except.ok (s, 42) : Except Unit (TimState × Nat))) 42 rfl

/-- C10: a `save_timings(to)` call whose body completes without raising
appends to the accumulator exactly the `(message, duration)` pairs recorded
by the `timed` calls of the body, in recording order, and resets the
TIMINGS context variable to the value it held before the call. -/
theorem c10_save_timings_exact (ops : List (String × Duration))
    (dest : List (String × Duration)) (s : TimState) :
    save_timings ops dest s = .ok (s, dest ++ ops) := by
  unfold save_timings
  rw [run_timed_ops_some ops []]
  simp [TIMINGS_get]

/-- C3 counterexample: on the malformed one-line input `import` under the
format command, the run's sole error line reports column 7, and the
column-8 message the claim asserts does not occur in it. -/
theorem c3_column_eight_refuted :
    formatOutputLines cfgDefault [⟨"sample.py", Except.ok [["import"]]⟩]
      = ["Error sorting sample.py: Syntax Error @ 1:7."] ∧
    infixB (syntaxErrorMessage 1 8).data
      "Error sorting sample.py: Syntax Error @ 1:7.".data = false := by
  decide

/-- C3 (amended): for the malformed input `import` under the format
command, the run reports a syntax error of the form
`Syntax Error @ <line>:<column>.` referencing line 1, column 7, exits with
status 1, and the file on disk is left unmodified (nothing is written). -/
theorem c3_syntax_error_scenario :
    formatOutputLines cfgDefault [⟨"sample.py", Except.ok [["import"]]⟩]
      = [errorLine "sample.py" (syntaxErrorMessage 1 7)] ∧
    syntaxErrorMessage 1 7 = "Syntax Error @ 1:7." ∧
    formatWrites cfgDefault [⟨"sample.py", Except.ok [["import"]]⟩] = [] ∧
    formatExit cfgDefault [⟨"sample.py", Except.ok [["import"]]⟩] = 1 := by
  decide

/-- C4: a file with a declared non-UTF-8 encoding is rewritten by format in
the same declared encoding: the coding declaration and every other line
outside the changed import blocks pass through byte-identically and in
order (so their encoded bytes are unchanged), with only import lines
inside blocks reordered. -/
theorem c4_encoding_round_trip (cfg : Config) (lines : List RawLine)
    (enc : String) (hne : enc ≠ "utf-8")
    (h : declaredEncoding lines = enc) :
    declaredEncoding (sortFile cfg lines) = enc ∧
    (sortFile cfg lines).filter (fun l => !isImport l) =
      lines.filter (fun l => !isImport l) ∧
    ((sortFile cfg lines).filter (fun l => !isImport l)).map (encodeLine enc) =
      (lines.filter (fun l => !isImport l)).map (encodeLine enc) := by
  refine ⟨declaredEncoding_sortFile cfg lines enc hne h,
    sortFile_filter_other cfg lines, ?_⟩
  rw [sortFile_filter_other cfg lines]

/-- C4 witness: the latin-1 test file, with its declared encoding. -/
theorem c4_encoding_round_trip_witness :
    ("latin-1" : String) ≠ "utf-8" ∧
    declaredEncoding latinSample = "latin-1" ∧
    (declaredEncoding (sortFile cfgDefault latinSample) = "latin-1" ∧
     (sortFile cfgDefault latinSample).filter (fun l => !isImport l) =
       latinSample.filter (fun l => !isImport l) ∧
     ((sortFile cfgDefault latinSample).filter (fun l => !isImport l)).map
         (encodeLine "latin-1") =
       (latinSample.filter (fun l => !isImport l)).map (encodeLine "latin-1")) :=
  ⟨by decide, by decide,
    c4_encoding_round_trip cfgDefault latinSample "latin-1"
      (by decide) (by decide)⟩

/-- C5: Scenario A — the input `import sys` then `import os` is formatted
to exactly `import os` then `import sys`, the two imports sorted by module
path with no other byte changed. -/
theorem c5_scenario_a :
    sortFile cfgDefault [["import", "sys"], ["import", "os"]] =
      [["import", "os"], ["import", "sys"]] ∧
    renderFile (sortFile cfgDefault [["import", "sys"], ["import", "os"]]) =
      "import os\nimport sys\n" := by
  have h : sortFile cfgDefault [["import", "sys"], ["import", "os"]] =
      [["import", "os"], ["import", "sys"]] := by
    simp +decide [sortFile, processRun, mergeRun, mergeAux, sortRun,
      List.insertionSort, List.orderedInsert]
  refine ⟨h, ?_⟩
  rw [h]
  decide

/-- C6: an unreadable file whose read error mentions Permission denied
yields, under format, a per-file error line containing the substring
`Permission denied` and exit status 1, while every file of the run still
receives its own independently computed result. -/
theorem c6_permission_error_isolated (cfg : Config) (files : List FsFile)
    (f : FsFile) (e : String) (hf : f ∈ files) (he : f.read = .error e)
    (hperm : infixB "Permission denied".data e.data = true) :
    (∃ line ∈ formatOutputLines cfg files,
      infixB "Permission denied".data line.data = true) ∧
    formatExit cfg files = 1 ∧
    ∀ g ∈ files, (g.path, processFile cfg g) ∈ formatRun cfg files := by
  have hproc : processFile cfg f = .failed e := by
    unfold processFile
    rw [he]
  have hmem : (f.path, FileResult.failed e) ∈ formatRun cfg files := by
    unfold formatRun
    exact List.mem_map.mpr ⟨f, hf, by rw [hproc]⟩
  refine ⟨⟨errorLine f.path e, ?_, ?_⟩, ?_, ?_⟩
  · unfold formatOutputLines
    exact List.mem_filterMap.mpr ⟨(f.path, FileResult.failed e), hmem, rfl⟩
  · unfold errorLine
    have hd : ("Error sorting " ++ f.path ++ ": " ++ e).data =
        ("Error sorting " ++ f.path ++ ": ").data ++ e.data :=
      String.data_append _ _
    rw [hd]
    exact infixB_append_left _ hperm _
  · have hany : (formatRun cfg files).any
        (fun pr => match pr.2 with | .failed _ => true | _ => false) = true :=
      List.any_eq_true.mpr ⟨(f.path, FileResult.failed e), hmem, rfl⟩
    simp [formatExit, hany]
  · intro g hg
    unfold formatRun
    exact List.mem_map.mpr ⟨g, hg, rfl⟩

/-- C6 witness: a two-file run whose second file fails to read with a
permission error; the theorem's conclusions hold for it. -/
theorem c6_permission_error_isolated_witness :
    (⟨"sample.py", Except.error "[Errno 13] Permission denied: sample.py"⟩
        : FsFile) ∈
      [(⟨"a.py", Except.ok [["import", "sys"]]⟩ : FsFile),
       ⟨"sample.py", Except.error "[Errno 13] Permission denied: sample.py"⟩] ∧
    infixB "Permission denied".data
      "[Errno 13] Permission denied: sample.py".data = true ∧
    ((∃ line ∈ formatOutputLines cfgDefault
        [(⟨"a.py", Except.ok [["import", "sys"]]⟩ : FsFile),
         ⟨"sample.py", Except.error "[Errno 13] Permission denied: sample.py"⟩],
        infixB "Permission denied".data line.data = true) ∧
     formatExit cfgDefault
        [(⟨"a.py", Except.ok [["import", "sys"]]⟩ : FsFile),
         ⟨"sample.py", Except.error "[Errno 13] Permission denied: sample.py"⟩]
        = 1 ∧
     ∀ g ∈ [(⟨"a.py", Except.ok [["import", "sys"]]⟩ : FsFile),
         ⟨"sample.py", Except.error "[Errno 13] Permission denied: sample.py"⟩],
       (g.path, processFile cfgDefault g) ∈ formatRun cfgDefault
        [(⟨"a.py", Except.ok [["import", "sys"]]⟩ : FsFile),
         ⟨"sample.py", Except.error "[Errno 13] Permission denied: sample.py"⟩]) :=
  ⟨List.mem_cons_of_mem _ (List.mem_cons_self _ _), by decide,
    c6_permission_error_isolated cfgDefault _ _ _
      (List.mem_cons_of_mem _ (List.mem_cons_self _ _)) rfl (by decide)⟩

/-- C7: Scenario E — the input `import sys` / `x = 5` / `import os` under
list-imports reports exactly two blocks with statement-index ranges
`body[0:1]` and `body[2:3]`, in the per-file format `<path> <N> blocks:`
followed per block by the range line, `Formatted:`, and the rendered block
delimited by `[[[` and `]]]`. -/
theorem c7_scenario_e_list_imports :
    listImportsReport cfgDefault "sample.py"
      [["import", "sys"], ["x", "=", "5"], ["import", "os"]] =
    ["sample.py 2 blocks:",
     "  body[0:1]", "Formatted:", "[[[", "import sys", "]]]",
     "  body[2:3]", "Formatted:", "[[[", "import os", "]]]"] := by
  simp +decide [listImportsReport, blocksFrom, reportBlock, processRun,
    mergeRun, mergeAux, sortRun, List.insertionSort, List.orderedInsert]

theorem spacesStr_length (n : Nat) : (spacesStr n).length = n := by
  unfold spacesStr
  show (List.replicate n ' ').length = n
  simp

theorem benchmarkTimings_length (root : String)
    (files : List (String × Duration × Duration)) (wd : Duration) :
    (benchmarkTimings root files wd).length = 1 + 2 * files.length := by
  unfold benchmarkTimings
  simp only [List.length_cons]
  induction files with
  | nil => rfl
  | cons f fs ih =>
    simp only [List.flatMap_cons, List.length_append, List.length_cons,
      List.length_nil, List.length_singleton] at *
    omega

/-- C8: with benchmarking enabled, the timing output has one line per
timed phase; the recorded phases include the walking phase for the root
and, per file, a parsing and a sorting phase; and each printed line is the
label plus a colon left-justified in a 50-character field, one space, the
duration truncated to integer microseconds right-aligned in a 7-character
field, then ` µs`. -/
theorem c8_print_timings_format (msg : String) (d : Duration) (root : String)
    (files : List (String × Duration × Duration)) (wd : Duration)
    (h1 : msg.length + 1 ≤ 50) (h2 : (toString (micros d)).length ≤ 7) :
    (print_timings (benchmarkTimings root files wd)).length =
      1 + 2 * files.length ∧
    ("walking " ++ root, wd) ∈ benchmarkTimings root files wd ∧
    (∀ f ∈ files,
      ("parsing " ++ f.1, f.2.1) ∈ benchmarkTimings root files wd ∧
      ("sorting " ++ f.1, f.2.2) ∈ benchmarkTimings root files wd) ∧
    timingLine msg d =
      ((msg ++ ":") ++ spacesStr (49 - msg.length)) ++ " " ++
        (spacesStr (7 - (toString (micros d)).length) ++ toString (micros d)) ++
        " µs" ∧
    ((msg ++ ":") ++ spacesStr (49 - msg.length)).length = 50 ∧
    (spacesStr (7 - (toString (micros d)).length) ++
      toString (micros d)).length = 7 := by
  have hmsglen : (msg ++ ":").length = msg.length + 1 := by
    rw [String.length_append]
    rfl
  refine ⟨?_, ?_, ?_, ?_, ?_, ?_⟩
  · unfold print_timings
    rw [List.length_map]
    exact benchmarkTimings_length root files wd
  · exact List.mem_cons_self _ _
  · intro f hf
    constructor
    · unfold benchmarkTimings
      apply List.mem_cons_of_mem
      exact List.mem_flatMap.mpr ⟨f, hf, by simp⟩
    · unfold benchmarkTimings
      apply List.mem_cons_of_mem
      exact List.mem_flatMap.mpr ⟨f, hf, by simp⟩
  · unfold timingLine padRightStr padLeftStr
    rw [hmsglen]
    have h50 : 50 - (msg.length + 1) = 49 - msg.length := by omega
    rw [h50]
  · rw [String.length_append, hmsglen, spacesStr_length]
    omega
  · rw [String.length_append, spacesStr_length]
    omega

/-- C8 witness: a concrete phase label and duration. -/
theorem c8_print_timings_format_witness :
    "parsing sample.py".length + 1 ≤ 50 ∧
    (toString (micros 3)).length ≤ 7 ∧
    timingLine "parsing sample.py" 3 =
      (("parsing sample.py" ++ ":") ++
          spacesStr (49 - "parsing sample.py".length)) ++ " " ++
        (spacesStr (7 - (toString (micros 3)).length) ++
          toString (micros 3)) ++ " µs" :=
  ⟨by decide, by decide,
    (c8_print_timings_format "parsing sample.py" 3 "."
      [("sample.py", 2, 3)] 1 (by decide) (by decide)).2.2.2.1⟩

end Usort
